import Mathlib

/-!
Verification of the PyCG call-graph construction pass
(`pycg/processing/cgprocessor.py`) against its specification.

The pass is shallowly embedded: Python AST nodes become the inductive
`Node`, the processor's mutable state (call graph, `last_called_names`,
per-scope lambda counters) becomes the structure `PState`, and the
external collaborators the pass consumes read-only (definition store,
closure mapping, scope chain, the name-resolution helpers inherited from
`ProcessingBase`) become fields of the read-only environment `Env`.
Python dictionaries' `.get` is modelled with `Option`; Python sets are
modelled as lists up to membership (insertion is deduplicating, and all
theorems about them are stated via membership).
-/

namespace PyCG

/-- Kinds of definitions (`utils.constants.FUN_DEF`, `CLS_DEF`, ...).
The definition store (`pycg/machinery/definitions.py`) is not part of the
analysed core; the kinds follow the spec's data model: function, class,
module-level name/alias, external/unresolved. -/
inductive DefType where
  | fun_def
  | cls_def
  | name_def
  | ext_def
deriving DecidableEq, Repr

/-- Modelled from the spec: a `Definition` record of the external
Definition Store (`pycg/machinery/definitions.py` is not under `src/`).
Per the spec's data model it carries a unique namespace, a kind, a
callability attribute and an origin flag (defined in analysed source vs.
external); the core only consumes these. -/
structure Definition where
  ns : String
  def_type : DefType
  callable : Bool
  ext : Bool
deriving DecidableEq, Repr

/-- Accessor `Definition.get_ns`. -/
def Definition.get_ns (d : Definition) : String := d.ns

/-- Accessor `Definition.get_type`. -/
def Definition.get_type (d : Definition) : DefType := d.def_type

/-- Predicate `Definition.is_callable` (consumed, not computed, by the core). -/
def Definition.is_callable (d : Definition) : Bool := d.callable

/-- Predicate `Definition.is_ext_def`: the origin flag of the spec's data model. -/
def Definition.is_ext_def (d : Definition) : Bool := d.ext

/-- Predicate `Definition.is_function_def`: a function-kind definition. -/
def Definition.is_function_def (d : Definition) : Bool := d.def_type == DefType.fun_def

/-- Python AST nodes, restricted to the shapes the call-graph pass
dispatches on: `ast.Name`, `ast.Attribute`, `ast.Call`, `ast.Lambda`,
`ast.FunctionDef`, and an opaque leaf (`const`) for every other
expression (constants, subscripts, ...).  A `call`'s keyword arguments
are represented by their value expressions (the pass only ever visits
`keyword.value`). -/
inductive Node where
  | name (id : String)
  | const
  | attrib (value : Node) (attr : String)
  | call (func : Node) (args : List Node) (keywords : List Node)
  | lam (body : Node)
  | functionDef (fname : String) (decorator_list : List Node) (body : List Node)

/-- Result of `ProcessingBase.decode_node`: either a `Definition` or some
other decoded value (literal, ...); the pass only tests
`isinstance(d, Definition)`. -/
inductive Decoded where
  | defn (d : Definition)
  | other
deriving DecidableEq, Repr

/-- A lexical scope: its local-name table (`Scope.get_defs()`).  A scope
chain (innermost first) stands for the `parent`-linked chain of the
external scope manager. -/
structure Scope where
  defs : List (String × Definition)
deriving DecidableEq, Repr

/-- Modelled from the spec: the Call Graph Store
(`pycg/machinery/callgraph.py` is not under `src/`).  Per the spec it is
a node set plus an edge set, both idempotent under repeated insertion,
with the invariant that every edge endpoint is a registered node; hence
`add_edge` registers both endpoints as nodes. -/
structure CallGraph where
  nodes : List String
  edges : List (String × String)
deriving DecidableEq, Repr

/-- Idempotent set insertion on the list model of a Python set. -/
def insertIfAbsent {α : Type} [DecidableEq α] (x : α) (l : List α) : List α :=
  if x ∈ l then l else l ++ [x]

/-- Modelled from the spec: `add_node` — idempotent node registration. -/
def CallGraph.add_node (cg : CallGraph) (ns : String) : CallGraph :=
  { cg with nodes := insertIfAbsent ns cg.nodes }

/-- Modelled from the spec: `add_edge` — registers both endpoints as
nodes and idempotently inserts the edge. -/
def CallGraph.add_edge (cg : CallGraph) (src dest : String) : CallGraph :=
  let cg := (cg.add_node src).add_node dest
  { cg with edges := insertIfAbsent (src, dest) cg.edges }

/-- Modelled from the spec: `utils.join_ns` joins namespace components
into a dotted identifier (`pycg/utils` is not under `src/`). -/
def join_ns (a b : String) : String := a ++ "." ++ b

/-- Modelled from the spec: `utils.constants.BUILTIN_NAME`, the synthetic
namespace reserved for built-ins. -/
def BUILTIN_NAME : String := "<builtin>"

/-- Modelled from the spec: `utils.constants.CLS_INIT`, the constructor
method name used when a class is called. -/
def CLS_INIT : String := "__init__"

/-- Modelled from the spec: `utils.get_lambda_name` synthesizes the name
of the n-th lambda of a scope from the scope's counter. -/
def get_lambda_name (counter : Nat) : String :=
  "<lambda_" ++ toString counter ++ ">"

/-- The read-only environment of one `CallGraphProcessor`: the external
collaborators consumed by the pass.  `def_manager` is the Definition
Store's `get`; `closured` is the transitive-closure mapping (a Python
dict, so lookup is partial); `scopes` gives the scope chain (innermost
first, `[]` when the namespace has no scope); `scope_get_def` is
`scope_manager.get_def`; `retrieve_call_names`, `decode_node`,
`retrieve_parent_names` and `find_cls_fun_ns` are the name-resolution
helpers inherited from `ProcessingBase` (not under `src/`, hence
abstract); `builtins` models membership in `__builtins__`. -/
structure Env where
  def_manager : String → Option Definition
  closured : String → Option (List String)
  scopes : String → List Scope
  scope_get_def : String → String → Option Definition
  retrieve_call_names : Node → List String
  decode_node : Node → List Decoded
  retrieve_parent_names : Node → List String
  find_cls_fun_ns : String → String → List String
  builtins : List String

/-- The mutable state threaded through the pass: the call graph, the
`last_called_names` diagnostic field, and the per-scope lambda counters
(held by the scope objects in the source; keyed by namespace here). -/
structure PState where
  call_graph : CallGraph
  last_called_names : List String
  lambda_counters : String → Nat

/-- `CallGraphProcessor.is_builtin`: membership of a bare name among the
built-ins. -/
def is_builtin (env : Env) (name : String) : Bool :=
  name ∈ env.builtins

/-- `CallGraphProcessor.has_ext_parent`: walk the attribute chain from
the full expression inward; at each level ask `_retrieve_parent_names`
and report true as soon as some parent namespace has a Definition
flagged external; report false when the chain bottoms out at a
non-attribute node. -/
def has_ext_parent (env : Env) : Node → Bool
  | Node.attrib v a =>
      if (env.retrieve_parent_names (Node.attrib v a)).any (fun parent =>
          match env.def_manager parent with
          | some defi => defi.is_ext_def
          | none => false) then
        true
      else
        has_ext_parent env v
  | _ => false

/-- The suffix-building loop of `CallGraphProcessor.get_full_attr_names`:
walk inward from the outermost attribute access accumulating the dotted
suffix, and return the suffix together with the chain's root node. -/
def buildAttrName : Node → String → String × Node
  | Node.attrib v a, name =>
      buildAttrName v (if name = "" then a else a ++ "." ++ name)
  | n, name => (name, n)

/-- `CallGraphProcessor.get_full_attr_names`: build the dotted suffix of
the attribute chain, require the root to be a bare `ast.Name`, resolve
that root in the current scope, and append the suffix to every namespace
in the closure of the root's definition.  A root with no `id`, an
unresolvable root, or a missing/empty closure entry yields `[]`. -/
def get_full_attr_names (env : Env) (current_ns : String) (node : Node) : List String :=
  match buildAttrName node "" with
  | (name, Node.name id) =>
      match env.scope_get_def current_ns id with
      | some defi =>
          match env.closured defi.get_ns with
          | some cl => cl.map (fun i => i ++ "." ++ name)
          | none => []
      | none => []
  | _ => []

/-- The body of the `for pointer in names:` loop of `visit_Call`: a
candidate namespace with no existing Definition is skipped; one whose
Definition is callable gets the direct edge; one whose Definition is a
class definition gets an edge to every resolved constructor namespace
(both may fire for the same candidate). -/
def callPointerStep (env : Env) (current_ns : String) (st : PState) (pointer : String) : PState :=
  match env.def_manager pointer with
  | none => st
  | some pointer_def =>
      let st :=
        if pointer_def.is_callable then
          { st with call_graph := st.call_graph.add_edge current_ns pointer }
        else
          st
      if pointer_def.get_type == DefType.cls_def then
        let cg := (env.find_cls_fun_ns pointer CLS_INIT).foldl
          (fun cg ns => cg.add_edge current_ns ns) st.call_graph
        { st with call_graph := cg }
      else
        st

/-- The resolution tail of `CallGraphProcessor.visit_Call` (everything
after the sub-expression visits): compute the callee's candidate
namespaces; on an empty result apply the external-attribute-chain
fallback, else the built-in fallback, else do nothing; on a non-empty
result record `last_called_names` and run `callPointerStep` over the
candidates. -/
def resolveCall (env : Env) (current_ns : String) (func : Node)
    (args keywords : List Node) (st : PState) : PState :=
  let names := env.retrieve_call_names (Node.call func args keywords)
  if names.isEmpty then
    match func with
    | Node.attrib v a =>
        if has_ext_parent env (Node.attrib v a) then
          let cg := (get_full_attr_names env current_ns (Node.attrib v a)).foldl
            (fun cg name => cg.add_edge current_ns name) st.call_graph
          { st with call_graph := cg }
        else
          st
    | Node.name id =>
        if id ≠ "" ∧ is_builtin env id then
          { st with call_graph := st.call_graph.add_edge current_ns (join_ns BUILTIN_NAME id) }
        else
          st
    | _ => st
  else
    let st := { st with last_called_names := names }
    names.foldl (callPointerStep env current_ns) st

/-- The body of the `for d in decoded:` loop of `visit_FunctionDef`:
decoded values that are not Definitions are ignored; a decoded
Definition adds an edge from the current namespace to every namespace in
its closure (`self.closured.get(d.get_ns(), [])`). -/
def decodeStep (env : Env) (ns : String) (st : PState) (d : Decoded) : PState :=
  match d with
  | Decoded.defn dd =>
      let cg := ((env.closured dd.get_ns).getD []).foldl
        (fun cg name => cg.add_edge ns name) st.call_graph
      { st with call_graph := cg }
  | Decoded.other => st

mutual

/-- The tree walk of the pass.  `ast.Name` and opaque leaves have no
children; `ast.Attribute` generically visits its value; `visit_Lambda`
obtains the scope's next lambda ordinal, registers the synthesized node
and descends into the body under the lambda namespace; `visit_Call`
visits positional arguments, then keyword values, then the callee, then
resolves (`resolveCall`); `visit_FunctionDef` (the later, effective,
definition in the source) processes decorators at the enclosing
namespace, registers the function's node, and descends into the body
under the function's namespace. -/
def visit (env : Env) (ns : String) (st : PState) : Node → PState
  | Node.name _ => st
  | Node.const => st
  | Node.attrib v _ => visit env ns st v
  | Node.lam body =>
      let counter := st.lambda_counters ns + 1
      let lambda_fullns := join_ns ns (get_lambda_name counter)
      let counters := fun m => if m = ns then counter else st.lambda_counters m
      let st := { st with lambda_counters := counters,
                          call_graph := st.call_graph.add_node lambda_fullns }
      visit env lambda_fullns st body
  | Node.call f args keywords =>
      let st := visitList env ns st args
      let st := visitList env ns st keywords
      let st := visit env ns st f
      resolveCall env ns f args keywords st
  | Node.functionDef fname decorator_list body =>
      let st := visitDecorators env ns st decorator_list
      let st := { st with call_graph := st.call_graph.add_node (join_ns ns fname) }
      visitList env (join_ns ns fname) st body

/-- Visiting a list of sibling nodes left to right. -/
def visitList (env : Env) (ns : String) (st : PState) : List Node → PState
  | [] => st
  | n :: rest => visitList env ns (visit env ns st n) rest

/-- The decorator loop of `visit_FunctionDef`: visit each decorator
expression, decode it, and for every decoded `Definition` add an edge
from the current (enclosing) namespace to every namespace in its closure
(missing closure entries default to the empty set). -/
def visitDecorators (env : Env) (ns : String) (st : PState) : List Node → PState
  | [] => st
  | dec :: rest =>
      let st := visit env ns st dec
      let st := (env.decode_node dec).foldl (decodeStep env ns) st
      visitDecorators env ns st rest

end

/-- The inner loop of `CallGraphProcessor.get_all_reachable_functions`
over one scope's definition table.  A function-kind definition whose
name was not already counted looks its namespace up in the closure
mapping with a bare `.get` and then iterates the result: a missing entry
(`None` in Python) makes that iteration raise, modelled by `none`. -/
def procDefs (env : Env) : List (String × Definition) → List String → List String →
    Option (List String × List String)
  | [], reach, names => some (reach, names)
  | (name, defi) :: rest, reach, names =>
      if defi.is_function_def ∧ name ∉ names then
        match env.closured defi.get_ns with
        | none => none
        | some closured => procDefs env rest (reach ++ closured) (names ++ [name])
      else
        procDefs env rest reach names

/-- The outer `while current_scope:` loop of
`CallGraphProcessor.get_all_reachable_functions`, walking the scope
chain outward. -/
def reachLoop (env : Env) : List Scope → List String → List String → Option (List String)
  | [], reach, _ => some reach
  | sc :: parent, reach, names =>
      match procDefs env sc.defs reach names with
      | none => none
      | some (reach', names') => reachLoop env parent reach' names'

/-- `CallGraphProcessor.get_all_reachable_functions`: walk the scope
chain of the current namespace outward collecting function definitions
(with name shadowing) and return the union of their closures; `none`
models the `TypeError` raised when a collected definition's namespace is
missing from the closure mapping. -/
def get_all_reachable_functions (env : Env) (current_ns : String) : Option (List String) :=
  reachLoop env (env.scopes current_ns) [] []

/-- The levels of an attribute chain: the chain itself, then each of its
attribute-access prefixes, stopping at the first non-attribute node.
These are exactly the nodes inspected by the `while` loop of
`has_ext_parent`. -/
def attrLevels : Node → List Node
  | Node.attrib v a => Node.attrib v a :: attrLevels v
  | _ => []

/-- Follows the claim's words (C7 refinement spec), per-level part: the
closures of the function-kind definitions of one scope that are not
shadowed by an already-counted name, concatenated in order. -/
def specLevel (env : Env) : List (String × Definition) → List String → List String
  | [], _ => []
  | (name, defi) :: rest, seen =>
      if defi.is_function_def ∧ name ∉ seen then
        ((env.closured defi.get_ns).getD []) ++ specLevel env rest (seen ++ [name])
      else
        specLevel env rest seen

/-- Follows the claim's words (C7 refinement spec): the names newly
counted while scanning one scope's definitions. -/
def specNames : List (String × Definition) → List String → List String
  | [], _ => []
  | (name, defi) :: rest, seen =>
      if defi.is_function_def ∧ name ∉ seen then
        name :: specNames rest (seen ++ [name])
      else
        specNames rest seen

/-- Follows the claim's words (C7 refinement spec): walk the scope chain
outward, collect every function-kind definition visible in any enclosing
scope — once a name has been counted in an inner scope, an outer scope's
same-named definition is not recounted — and union the closures of the
collected definitions. -/
def reachableSpec (env : Env) : List Scope → List String → List String
  | [], _ => []
  | sc :: parent, seen =>
      specLevel env sc.defs seen ++ reachableSpec env parent (seen ++ specNames sc.defs seen)

/-- Modelled from the spec: the Import/Module system's view of a run —
each module's parsed tree (its top-level statement list) and the
submodules its imports reach (`ProcessingBase.analyze_submodules` and
the import manager are not under `src/`). -/
structure ModEnv where
  trees : String → List Node
  imports : String → List String

/-- State of a whole analysis run: the processor state shared across
modules (`call_graph=self.call_graph` is passed to every submodule
processor), the visited-module set guarding cyclic imports, and a
counter of how often `def_manager.transitive_closure()` has been
invoked (it is invoked in `CallGraphProcessor.__init__`, source line 24,
once per constructed processor). -/
structure RunState where
  pst : PState
  analyzed : List String
  closure_invocations : Nat

/-- Modelled from the spec: one analysis run with recursive submodule
analysis.  A module already in the visited set is a no-op; otherwise a
fresh `CallGraphProcessor` is constructed for it — which invokes the
transitive-closure computation (source line 24) — its tree is visited,
and its submodules are analyzed recursively.  `fuel` bounds the import
depth (any bound at least the number of modules is exact, since the
visited set guarantees each module is walked at most once). -/
def analyzeSub (env : Env) (menv : ModEnv) : Nat → String → RunState → RunState
  | 0, _, rs => rs
  | fuel + 1, modname, rs =>
      if modname ∈ rs.analyzed then rs
      else
        let rs := { rs with analyzed := modname :: rs.analyzed,
                            closure_invocations := rs.closure_invocations + 1 }
        let rs := { rs with pst := visitList env modname rs.pst (menv.trees modname) }
        (menv.imports modname).foldl (fun rs imp => analyzeSub env menv fuel imp rs) rs

/-! ### Basic lemmas about the call-graph store -/

/-- The edge/node invariant of the spec's data model: every edge
endpoint is a registered node. -/
def good (cg : CallGraph) : Prop := ∀ e ∈ cg.edges, e.1 ∈ cg.nodes ∧ e.2 ∈ cg.nodes

theorem mem_insertIfAbsent {α : Type} [DecidableEq α] {x y : α} {l : List α} :
    x ∈ insertIfAbsent y l ↔ x = y ∨ x ∈ l := by
  unfold insertIfAbsent
  by_cases h : y ∈ l
  · simp only [if_pos h]
    constructor
    · exact fun hx => Or.inr hx
    · rintro (rfl | hx)
      · exact h
      · exact hx
  · simp [if_neg h, List.mem_append, or_comm]

theorem edges_add_node (cg : CallGraph) (n : String) :
    (cg.add_node n).edges = cg.edges := rfl

theorem mem_nodes_add_node {cg : CallGraph} {n x : String} :
    x ∈ (cg.add_node n).nodes ↔ x = n ∨ x ∈ cg.nodes := mem_insertIfAbsent

theorem mem_edges_add_edge {cg : CallGraph} {s d : String} {e : String × String} :
    e ∈ (cg.add_edge s d).edges ↔ e = (s, d) ∨ e ∈ cg.edges := mem_insertIfAbsent

theorem mem_nodes_add_edge {cg : CallGraph} {s d x : String} :
    x ∈ (cg.add_edge s d).nodes ↔ x = d ∨ x = s ∨ x ∈ cg.nodes := by
  show x ∈ ((cg.add_node s).add_node d).nodes ↔ _
  rw [mem_nodes_add_node, mem_nodes_add_node]

theorem good_add_node {cg : CallGraph} (h : good cg) (n : String) :
    good (cg.add_node n) := by
  intro e he
  rw [edges_add_node] at he
  obtain ⟨h1, h2⟩ := h e he
  exact ⟨mem_nodes_add_node.mpr (Or.inr h1), mem_nodes_add_node.mpr (Or.inr h2)⟩

theorem good_add_edge {cg : CallGraph} (h : good cg) (s d : String) :
    good (cg.add_edge s d) := by
  intro e he
  rw [mem_edges_add_edge] at he
  rcases he with rfl | he
  · exact ⟨mem_nodes_add_edge.mpr (Or.inr (Or.inl rfl)),
      mem_nodes_add_edge.mpr (Or.inl rfl)⟩
  · obtain ⟨h1, h2⟩ := h e he
    exact ⟨mem_nodes_add_edge.mpr (Or.inr (Or.inr h1)),
      mem_nodes_add_edge.mpr (Or.inr (Or.inr h2))⟩

/-! ### Growth of the processor state

`CGLE cg cg'` says the call graph only grew (edge and node sets) and the
edge/node invariant is preserved; lifted to states as `PLE`.  Every
operation of the pass satisfies it. -/

def CGLE (cg cg' : CallGraph) : Prop :=
  (∀ e, e ∈ cg.edges → e ∈ cg'.edges) ∧
  (∀ n, n ∈ cg.nodes → n ∈ cg'.nodes) ∧
  (good cg → good cg')

theorem cgle_refl {cg : CallGraph} : CGLE cg cg :=
  ⟨fun _ h => h, fun _ h => h, fun h => h⟩

theorem cgle_trans {a b c : CallGraph} (h1 : CGLE a b) (h2 : CGLE b c) : CGLE a c :=
  ⟨fun e he => h2.1 e (h1.1 e he), fun n hn => h2.2.1 n (h1.2.1 n hn),
    fun g => h2.2.2 (h1.2.2 g)⟩

theorem cgle_add_node (cg : CallGraph) (n : String) : CGLE cg (cg.add_node n) :=
  ⟨fun e he => by rw [edges_add_node]; exact he,
    fun x hx => mem_nodes_add_node.mpr (Or.inr hx),
    fun g => good_add_node g n⟩

theorem cgle_add_edge (cg : CallGraph) (s d : String) : CGLE cg (cg.add_edge s d) :=
  ⟨fun _e he => mem_edges_add_edge.mpr (Or.inr he),
    fun _x hx => mem_nodes_add_edge.mpr (Or.inr (Or.inr hx)),
    fun g => good_add_edge g s d⟩

theorem cgle_foldl_add_edge (l : List String) (ns : String) (cg : CallGraph) :
    CGLE cg (l.foldl (fun cg n => cg.add_edge ns n) cg) := by
  induction l generalizing cg with
  | nil => exact cgle_refl
  | cons n rest ih =>
      exact cgle_trans (cgle_add_edge cg ns n) (ih (cg.add_edge ns n))

/-- State growth: the call graph only grows and stays invariant-good. -/
def PLE (st st' : PState) : Prop := CGLE st.call_graph st'.call_graph

theorem ple_refl {st : PState} : PLE st st := cgle_refl

theorem ple_trans {a b c : PState} (h1 : PLE a b) (h2 : PLE b c) : PLE a c :=
  cgle_trans h1 h2

theorem ple_foldl {α : Type} (step : PState → α → PState)
    (h : ∀ st a, PLE st (step st a)) (l : List α) (st : PState) :
    PLE st (l.foldl step st) := by
  induction l generalizing st with
  | nil => exact ple_refl
  | cons a rest ih => exact ple_trans (h st a) (ih (step st a))

theorem ple_foldl' {α : Type} (step : PState → α → PState)
    (h : ∀ st a, PLE st (step st a)) (l : List α) (st st' : PState)
    (hcg : st.call_graph = st'.call_graph) : PLE st (l.foldl step st') := by
  have h1 : PLE st st' := by rw [PLE, hcg]; exact cgle_refl
  exact ple_trans h1 (ple_foldl step h l st')

theorem callPointerStep_ple (env : Env) (ns : String) (st : PState) (p : String) :
    PLE st (callPointerStep env ns st p) := by
  unfold callPointerStep
  cases hdef : env.def_manager p with
  | none => exact ple_refl
  | some pd =>
      simp only []
      have hA : PLE st (if pd.is_callable then
          { st with call_graph := st.call_graph.add_edge ns p } else st) := by
        split
        · exact cgle_add_edge st.call_graph ns p
        · exact ple_refl
      split
      · exact ple_trans hA (cgle_foldl_add_edge _ ns _)
      · exact hA

theorem resolveCall_ple (env : Env) (ns : String) (func : Node)
    (args keywords : List Node) (st : PState) :
    PLE st (resolveCall env ns func args keywords st) := by
  simp only [resolveCall]
  split
  · split
    · split
      · exact cgle_foldl_add_edge _ ns st.call_graph
      · exact ple_refl
    · split
      · exact cgle_add_edge st.call_graph ns _
      · exact ple_refl
    · exact ple_refl
  · exact ple_foldl' _ (callPointerStep_ple env ns) _ _ _ rfl

theorem decodeStep_ple (env : Env) (ns : String) (st : PState) (d : Decoded) :
    PLE st (decodeStep env ns st d) := by
  cases d with
  | defn dd => exact cgle_foldl_add_edge _ ns st.call_graph
  | other => exact ple_refl

mutual

theorem visit_ple (env : Env) (ns : String) (st : PState) (node : Node) :
    PLE st (visit env ns st node) := by
  cases node with
  | name id => exact ple_refl
  | const => exact ple_refl
  | attrib v a => exact visit_ple env ns st v
  | lam body =>
      refine ple_trans (?_ : PLE st _) (visit_ple env _ _ body)
      exact cgle_add_node st.call_graph _
  | call f args keywords =>
      refine ple_trans (visitList_ple env ns st args) (ple_trans (visitList_ple env ns _ keywords)
        (ple_trans (visit_ple env ns _ f) (resolveCall_ple env ns f args keywords _)))
  | functionDef fname decs body =>
      refine ple_trans (visitDecorators_ple env ns st decs) (ple_trans
        (?_ : PLE _ _) (visitList_ple env (join_ns ns fname) _ body))
      exact cgle_add_node _ _

theorem visitList_ple (env : Env) (ns : String) (st : PState) (l : List Node) :
    PLE st (visitList env ns st l) := by
  cases l with
  | nil => exact ple_refl
  | cons n rest => exact ple_trans (visit_ple env ns st n) (visitList_ple env ns _ rest)

theorem visitDecorators_ple (env : Env) (ns : String) (st : PState) (l : List Node) :
    PLE st (visitDecorators env ns st l) := by
  cases l with
  | nil => exact ple_refl
  | cons dec rest =>
      refine ple_trans (visit_ple env ns st dec) (ple_trans
        (ple_foldl _ (decodeStep_ple env ns) (env.decode_node dec) _)
        (visitDecorators_ple env ns _ rest))

end

/-! ### Exact characterization of the edges each step adds -/

theorem mem_edges_foldl_add_edge (l : List String) (ns : String) (cg : CallGraph)
    (e : String × String) :
    e ∈ (l.foldl (fun cg n => cg.add_edge ns n) cg).edges ↔
      e ∈ cg.edges ∨ ∃ n ∈ l, e = (ns, n) := by
  induction l generalizing cg with
  | nil => simp
  | cons n rest ih =>
      rw [List.foldl_cons, ih, mem_edges_add_edge]
      constructor
      · rintro ((rfl | he) | ⟨m, hm, rfl⟩)
        · exact Or.inr ⟨n, List.mem_cons_self n rest, rfl⟩
        · exact Or.inl he
        · exact Or.inr ⟨m, List.mem_cons_of_mem n hm, rfl⟩
      · rintro (he | ⟨m, hm, rfl⟩)
        · exact Or.inl (Or.inr he)
        · rcases List.mem_cons.mp hm with rfl | hm
          · exact Or.inl (Or.inl rfl)
          · exact Or.inr ⟨m, hm, rfl⟩

/-- Generic characterization of a state fold whose per-element edge
contribution is known. -/
theorem mem_edges_foldl_step {α : Type} (step : PState → α → PState)
    (contrib : α → (String × String) → Prop)
    (h : ∀ st a e, e ∈ (step st a).call_graph.edges ↔
      e ∈ st.call_graph.edges ∨ contrib a e)
    (l : List α) (st : PState) (e : String × String) :
    e ∈ (l.foldl step st).call_graph.edges ↔
      e ∈ st.call_graph.edges ∨ ∃ a ∈ l, contrib a e := by
  induction l generalizing st with
  | nil => simp
  | cons a rest ih =>
      rw [List.foldl_cons, ih, h]
      constructor
      · rintro ((he | hc) | ⟨b, hb, hc⟩)
        · exact Or.inl he
        · exact Or.inr ⟨a, List.mem_cons_self a rest, hc⟩
        · exact Or.inr ⟨b, List.mem_cons_of_mem a hb, hc⟩
      · rintro (he | ⟨b, hb, hc⟩)
        · exact Or.inl (Or.inl he)
        · rcases List.mem_cons.mp hb with rfl | hb
          · exact Or.inl (Or.inr hc)
          · exact Or.inr ⟨b, hb, hc⟩

/-- The edge contribution of one resolved candidate namespace in the
non-empty-names branch of `visit_Call`: nothing without a Definition;
the direct edge when callable; the constructor edges when a class. -/
def callContrib (env : Env) (ns : String) (pointer : String) (e : String × String) : Prop :=
  ∃ d, env.def_manager pointer = some d ∧
    ((d.is_callable = true ∧ e = (ns, pointer)) ∨
     (d.get_type = DefType.cls_def ∧ ∃ c ∈ env.find_cls_fun_ns pointer CLS_INIT, e = (ns, c)))

theorem mem_edges_callPointerStep (env : Env) (ns : String) (st : PState) (p : String)
    (e : String × String) :
    e ∈ (callPointerStep env ns st p).call_graph.edges ↔
      e ∈ st.call_graph.edges ∨ callContrib env ns p e := by
  unfold callPointerStep callContrib
  cases hdef : env.def_manager p with
  | none => simp
  | some pd =>
      simp only [Option.some.injEq]
      by_cases hc : pd.is_callable = true <;> by_cases ht : pd.get_type = DefType.cls_def <;>
        simp [hc, ht, mem_edges_foldl_add_edge, mem_edges_add_edge] <;>
        aesop

theorem resolveCall_resolved (env : Env) (ns : String) (func : Node)
    (args keywords : List Node) (st : PState)
    (h : env.retrieve_call_names (Node.call func args keywords) ≠ []) :
    resolveCall env ns func args keywords st =
      (env.retrieve_call_names (Node.call func args keywords)).foldl
        (callPointerStep env ns)
        { st with last_called_names := env.retrieve_call_names (Node.call func args keywords) } := by
  simp only [resolveCall]
  rw [if_neg]
  simp [h]

theorem mem_edges_resolveCall_resolved (env : Env) (ns : String) (func : Node)
    (args keywords : List Node) (st : PState) (e : String × String)
    (h : env.retrieve_call_names (Node.call func args keywords) ≠ []) :
    e ∈ (resolveCall env ns func args keywords st).call_graph.edges ↔
      e ∈ st.call_graph.edges ∨
        ∃ p ∈ env.retrieve_call_names (Node.call func args keywords), callContrib env ns p e := by
  rw [resolveCall_resolved env ns func args keywords st h]
  exact mem_edges_foldl_step _ _ (mem_edges_callPointerStep env ns) _ _ e

theorem resolveCall_empty_ext (env : Env) (ns : String) (v : Node) (a : String)
    (args keywords : List Node) (st : PState)
    (hempty : env.retrieve_call_names (Node.call (Node.attrib v a) args keywords) = [])
    (hext : has_ext_parent env (Node.attrib v a) = true) :
    resolveCall env ns (Node.attrib v a) args keywords st =
      { st with call_graph := (get_full_attr_names env ns (Node.attrib v a)).foldl (fun cg name => cg.add_edge ns name) st.call_graph } := by
  simp [resolveCall, hempty, hext]

theorem resolveCall_empty_builtin (env : Env) (ns : String) (id : String)
    (args keywords : List Node) (st : PState)
    (hempty : env.retrieve_call_names (Node.call (Node.name id) args keywords) = [])
    (hid : id ≠ "") (hb : is_builtin env id = true) :
    resolveCall env ns (Node.name id) args keywords st =
      { st with call_graph := st.call_graph.add_edge ns (join_ns BUILTIN_NAME id) } := by
  simp [resolveCall, hempty, hid, hb]

theorem resolveCall_empty_noop (env : Env) (ns : String) (func : Node)
    (args keywords : List Node) (st : PState)
    (hempty : env.retrieve_call_names (Node.call func args keywords) = [])
    (h1 : ∀ v a, func = Node.attrib v a → has_ext_parent env func = false)
    (h2 : ∀ id, func = Node.name id → id = "" ∨ is_builtin env id = false) :
    resolveCall env ns func args keywords st = st := by
  simp only [resolveCall, hempty, List.isEmpty_nil, if_pos]
  cases func with
  | attrib v a => simp [h1 v a rfl]
  | name id =>
      rcases h2 id rfl with h | h
      · subst h; simp
      · simp [h]
  | const => rfl
  | call f a k => rfl
  | lam b => rfl
  | functionDef f d b => rfl

/-- The candidate paths of the external fallback, spelled out: the
dotted suffix of the chain appended to every namespace in the closure of
the scope-resolved root identifier. -/
theorem get_full_attr_names_spec (env : Env) (ns : String) (node : Node)
    (id s : String) (hroot : buildAttrName node "" = (s, Node.name id)) :
    get_full_attr_names env ns node =
      (((env.scope_get_def ns id).bind (fun d => env.closured d.get_ns)).getD []).map
        (fun i => i ++ "." ++ s) := by
  unfold get_full_attr_names
  rw [hroot]
  cases hd : env.scope_get_def ns id with
  | none => simp [hd]
  | some defi =>
      cases hc : env.closured defi.get_ns with
      | none => simp [hd, hc]
      | some cl => simp [hd, hc]

/-- A non-identifier chain root yields no candidate paths. -/
theorem get_full_attr_names_nil (env : Env) (ns : String) (node : Node)
    (h : ∀ id, (buildAttrName node "").2 ≠ Node.name id) :
    get_full_attr_names env ns node = [] := by
  unfold get_full_attr_names
  cases hb : buildAttrName node "" with
  | mk s root =>
      cases root with
      | name id =>
          exfalso
          apply h id
          rw [hb]
      | const => rfl
      | attrib v a => rfl
      | call f a k => rfl
      | lam b => rfl
      | functionDef f d b => rfl

/-! ### Decorator processing -/

/-- The edge contributed by one decorator expression: some decoded
Definition whose closure contains the target namespace. -/
def decoratorContrib (env : Env) (ns : String) (dec : Node) (e : String × String) : Prop :=
  ∃ dd, Decoded.defn dd ∈ env.decode_node dec ∧
    ∃ n ∈ (env.closured dd.get_ns).getD [], e = (ns, n)

theorem mem_edges_decodeStep (env : Env) (ns : String) (st : PState) (d : Decoded)
    (e : String × String) :
    e ∈ (decodeStep env ns st d).call_graph.edges ↔
      e ∈ st.call_graph.edges ∨
        ∃ dd, d = Decoded.defn dd ∧ ∃ n ∈ (env.closured dd.get_ns).getD [], e = (ns, n) := by
  cases d with
  | defn dd => simp [decodeStep, mem_edges_foldl_add_edge]
  | other => simp [decodeStep]

theorem mem_edges_decodeFold (env : Env) (ns : String) (st : PState) (l : List Decoded)
    (e : String × String) :
    e ∈ (l.foldl (decodeStep env ns) st).call_graph.edges ↔
      e ∈ st.call_graph.edges ∨
        ∃ dd, Decoded.defn dd ∈ l ∧ ∃ n ∈ (env.closured dd.get_ns).getD [], e = (ns, n) := by
  rw [mem_edges_foldl_step (decodeStep env ns)
    (fun d e => ∃ dd, d = Decoded.defn dd ∧ ∃ n ∈ (env.closured dd.get_ns).getD [], e = (ns, n))
    (mem_edges_decodeStep env ns) l st e]
  constructor
  · rintro (he | ⟨d, hd, dd, rfl, hn⟩)
    · exact Or.inl he
    · exact Or.inr ⟨dd, hd, hn⟩
  · rintro (he | ⟨dd, hd, hn⟩)
    · exact Or.inl he
    · exact Or.inr ⟨Decoded.defn dd, hd, dd, rfl, hn⟩

/-- Atomic nodes: bare identifiers and opaque leaves, whose visit is a
no-op. -/
def atomicNode : Node → Bool
  | Node.name _ => true
  | Node.const => true
  | _ => false

theorem visit_atomic (env : Env) (ns : String) (st : PState) (node : Node)
    (h : atomicNode node = true) : visit env ns st node = st := by
  cases node with
  | name id => simp [visit]
  | const => simp [visit]
  | attrib v a => simp [atomicNode] at h
  | call f a k => simp [atomicNode] at h
  | lam b => simp [atomicNode] at h
  | functionDef f d b => simp [atomicNode] at h

theorem visitDecorators_cons (env : Env) (ns : String) (st : PState) (dec : Node)
    (rest : List Node) :
    visitDecorators env ns st (dec :: rest) =
      visitDecorators env ns
        ((env.decode_node dec).foldl (decodeStep env ns) (visit env ns st dec)) rest := by
  simp [visitDecorators]

theorem mem_edges_visitDecorators_atomic (env : Env) (ns : String) (st : PState)
    (decs : List Node) (hat : ∀ dec ∈ decs, atomicNode dec = true) (e : String × String) :
    e ∈ (visitDecorators env ns st decs).call_graph.edges ↔
      e ∈ st.call_graph.edges ∨ ∃ dec ∈ decs, decoratorContrib env ns dec e := by
  induction decs generalizing st with
  | nil => simp [visitDecorators]
  | cons dec rest ih =>
      rw [visitDecorators_cons, visit_atomic env ns st dec (hat dec (List.mem_cons_self dec rest)),
        ih _ (fun d hd => hat d (List.mem_cons_of_mem dec hd)), mem_edges_decodeFold]
      unfold decoratorContrib
      constructor
      · rintro ((he | hc) | ⟨d, hd, hc⟩)
        · exact Or.inl he
        · exact Or.inr ⟨dec, List.mem_cons_self dec rest, hc⟩
        · exact Or.inr ⟨d, List.mem_cons_of_mem dec hd, hc⟩
      · rintro (he | ⟨d, hd, hc⟩)
        · exact Or.inl (Or.inl he)
        · rcases List.mem_cons.mp hd with rfl | hd
          · exact Or.inl (Or.inr hc)
          · exact Or.inr ⟨d, hd, hc⟩

/-! ### The external-parent heuristic -/

theorem has_ext_parent_iff (env : Env) (node : Node) :
    has_ext_parent env node = true ↔
      ∃ lvl ∈ attrLevels node, ∃ p ∈ env.retrieve_parent_names lvl,
        ∃ d, env.def_manager p = some d ∧ d.is_ext_def = true := by
  cases node with
  | name id => simp [has_ext_parent, attrLevels]
  | const => simp [has_ext_parent, attrLevels]
  | attrib v a =>
      rw [show has_ext_parent env (Node.attrib v a) =
        (if (env.retrieve_parent_names (Node.attrib v a)).any (fun parent =>
            match env.def_manager parent with
            | some defi => defi.is_ext_def
            | none => false) then true else has_ext_parent env v) from rfl]
      split
      · next hany =>
          simp only [true_iff]
          rw [List.any_eq_true] at hany
          obtain ⟨p, hp, hext⟩ := hany
          refine ⟨Node.attrib v a, List.mem_cons_self _ _, p, hp, ?_⟩
          cases hd : env.def_manager p with
          | none => rw [hd] at hext; exact absurd hext (by simp)
          | some d => rw [hd] at hext; exact ⟨d, rfl, hext⟩
      · next hany =>
          rw [has_ext_parent_iff env v]
          show _ ↔ ∃ lvl ∈ attrLevels (Node.attrib v a), _
          rw [show attrLevels (Node.attrib v a) = Node.attrib v a :: attrLevels v from rfl]
          constructor
          · rintro ⟨lvl, hl, hrest⟩
            exact ⟨lvl, List.mem_cons_of_mem _ hl, hrest⟩
          · rintro ⟨lvl, hl, p, hp, d, hd, hext⟩
            rcases List.mem_cons.mp hl with rfl | hl
            · exfalso
              apply hany
              rw [List.any_eq_true]
              exact ⟨p, hp, by rw [hd]; exact hext⟩
            · exact ⟨lvl, hl, p, hp, d, hd, hext⟩
  | call f args ks => simp [has_ext_parent, attrLevels]
  | lam b => simp [has_ext_parent, attrLevels]
  | functionDef f d b => simp [has_ext_parent, attrLevels]

/-! ### The reachable-function query -/

theorem procDefs_eq (env : Env) (defs : List (String × Definition)) (reach names : List String)
    (h : ∀ p ∈ defs, p.2.is_function_def = true → (env.closured p.2.get_ns).isSome = true) :
    procDefs env defs reach names =
      some (reach ++ specLevel env defs names, names ++ specNames defs names) := by
  induction defs generalizing reach names with
  | nil => simp [procDefs, specLevel, specNames]
  | cons p rest ih =>
      obtain ⟨name, defi⟩ := p
      by_cases hcond : defi.is_function_def = true ∧ name ∉ names
      · obtain ⟨cl, hcl⟩ := Option.isSome_iff_exists.mp
          (h (name, defi) (List.mem_cons_self _ _) hcond.1)
        rw [show procDefs env ((name, defi) :: rest) reach names =
          (if defi.is_function_def ∧ name ∉ names then
            match env.closured defi.get_ns with
            | none => none
            | some closured => procDefs env rest (reach ++ closured) (names ++ [name])
          else procDefs env rest reach names) from rfl]
        rw [if_pos hcond, hcl]
        rw [show (match some cl with
          | none => none
          | some closured => procDefs env rest (reach ++ closured) (names ++ [name])) =
          procDefs env rest (reach ++ cl) (names ++ [name]) from rfl]
        rw [ih _ _ (fun q hq hf => h q (List.mem_cons_of_mem _ hq) hf)]
        rw [show specLevel env ((name, defi) :: rest) names =
          (if defi.is_function_def ∧ name ∉ names then
            ((env.closured defi.get_ns).getD []) ++ specLevel env rest (names ++ [name])
          else specLevel env rest names) from rfl]
        rw [show specNames ((name, defi) :: rest) names =
          (if defi.is_function_def ∧ name ∉ names then
            name :: specNames rest (names ++ [name])
          else specNames rest names) from rfl]
        rw [if_pos hcond, if_pos hcond, hcl]
        simp [List.append_assoc]
      · rw [show procDefs env ((name, defi) :: rest) reach names =
          (if defi.is_function_def ∧ name ∉ names then
            match env.closured defi.get_ns with
            | none => none
            | some closured => procDefs env rest (reach ++ closured) (names ++ [name])
          else procDefs env rest reach names) from rfl]
        rw [show specLevel env ((name, defi) :: rest) names =
          (if defi.is_function_def ∧ name ∉ names then
            ((env.closured defi.get_ns).getD []) ++ specLevel env rest (names ++ [name])
          else specLevel env rest names) from rfl]
        rw [show specNames ((name, defi) :: rest) names =
          (if defi.is_function_def ∧ name ∉ names then
            name :: specNames rest (names ++ [name])
          else specNames rest names) from rfl]
        rw [if_neg hcond, if_neg hcond, if_neg hcond]
        exact ih _ _ (fun q hq hf => h q (List.mem_cons_of_mem _ hq) hf)

theorem reachLoop_eq (env : Env) (chain : List Scope) (reach names : List String)
    (h : ∀ sc ∈ chain, ∀ p ∈ sc.defs, p.2.is_function_def = true →
      (env.closured p.2.get_ns).isSome = true) :
    reachLoop env chain reach names = some (reach ++ reachableSpec env chain names) := by
  induction chain generalizing reach names with
  | nil => simp [reachLoop, reachableSpec]
  | cons sc parent ih =>
      rw [show reachLoop env (sc :: parent) reach names =
        (match procDefs env sc.defs reach names with
        | none => none
        | some (reach', names') => reachLoop env parent reach' names') from rfl]
      rw [procDefs_eq env sc.defs reach names
        (fun p hp hf => h sc (List.mem_cons_self _ _) p hp hf)]
      rw [show (match some (reach ++ specLevel env sc.defs names,
          names ++ specNames sc.defs names) with
        | none => none
        | some (reach', names') => reachLoop env parent reach' names') =
        reachLoop env parent (reach ++ specLevel env sc.defs names)
          (names ++ specNames sc.defs names) from rfl]
      rw [ih _ _ (fun s hs p hp hf => h s (List.mem_cons_of_mem _ hs) p hp hf)]
      rw [show reachableSpec env (sc :: parent) names =
        specLevel env sc.defs names ++ reachableSpec env parent (names ++ specNames sc.defs names)
        from rfl]
      simp [List.append_assoc]

/-! ### The whole-run model -/

theorem foldl_analyzeSub_good (env : Env) (menv : ModEnv) (fuel : Nat)
    (ihf : ∀ modname rs, good rs.pst.call_graph →
      good (analyzeSub env menv fuel modname rs).pst.call_graph)
    (l : List String) (rs : RunState) (h : good rs.pst.call_graph) :
    good ((l.foldl (fun rs imp => analyzeSub env menv fuel imp rs) rs).pst.call_graph) := by
  induction l generalizing rs with
  | nil => exact h
  | cons imp rest ih => exact ih _ (ihf imp rs h)

theorem analyzeSub_good (env : Env) (menv : ModEnv) (fuel : Nat) (modname : String)
    (rs : RunState) (h : good rs.pst.call_graph) :
    good (analyzeSub env menv fuel modname rs).pst.call_graph := by
  induction fuel generalizing modname rs with
  | zero => exact h
  | succ n ih =>
      rw [analyzeSub]
      split
      · exact h
      · exact foldl_analyzeSub_good env menv n ih _ _
          ((visitList_ple env modname rs.pst (menv.trees modname)).2.2 h)

theorem foldl_analyzeSub_inv (env : Env) (menv : ModEnv) (fuel : Nat)
    (ihf : ∀ modname rs, rs.closure_invocations = rs.analyzed.length →
      (analyzeSub env menv fuel modname rs).closure_invocations =
        (analyzeSub env menv fuel modname rs).analyzed.length)
    (l : List String) (rs : RunState) (h : rs.closure_invocations = rs.analyzed.length) :
    ((l.foldl (fun rs imp => analyzeSub env menv fuel imp rs) rs).closure_invocations =
      (l.foldl (fun rs imp => analyzeSub env menv fuel imp rs) rs).analyzed.length) := by
  induction l generalizing rs with
  | nil => exact h
  | cons imp rest ih => exact ih _ (ihf imp rs h)

theorem analyzeSub_inv (env : Env) (menv : ModEnv) (fuel : Nat) (modname : String)
    (rs : RunState) (h : rs.closure_invocations = rs.analyzed.length) :
    (analyzeSub env menv fuel modname rs).closure_invocations =
      (analyzeSub env menv fuel modname rs).analyzed.length := by
  induction fuel generalizing modname rs with
  | zero => exact h
  | succ n ih =>
      rw [analyzeSub]
      split
      · exact h
      · refine foldl_analyzeSub_inv env menv n ih _ _ ?_
        simp [h]

/-! ### Unfolding equations for the tree walk -/

theorem visitList_nil (env : Env) (ns : String) (st : PState) :
    visitList env ns st [] = st := by
  simp [visitList]

theorem visit_call_eq (env : Env) (ns : String) (st : PState) (f : Node)
    (args keywords : List Node) :
    visit env ns st (Node.call f args keywords) =
      resolveCall env ns f args keywords
        (visit env ns (visitList env ns (visitList env ns st args) keywords) f) := by
  simp [visit]

theorem visit_functionDef_eq (env : Env) (ns : String) (st : PState) (fname : String)
    (decs body : List Node) :
    visit env ns st (Node.functionDef fname decs body) =
      visitList env (join_ns ns fname)
        { visitDecorators env ns st decs with call_graph :=
            (visitDecorators env ns st decs).call_graph.add_node (join_ns ns fname) } body := by
  simp [visit]

/-- An edge contributed by a listed decorator is present after the
decorator loop, whatever the other decorators do. -/
theorem mem_visitDecorators_of_contrib (env : Env) (ns : String) (st : PState)
    (decs : List Node) (dec : Node) (hdec : dec ∈ decs) (e : String × String)
    (hc : decoratorContrib env ns dec e) :
    e ∈ (visitDecorators env ns st decs).call_graph.edges := by
  induction decs generalizing st with
  | nil => exact absurd hdec (List.not_mem_nil dec)
  | cons d rest ih =>
      rw [visitDecorators_cons]
      rcases List.mem_cons.mp hdec with rfl | hdec
      · refine (visitDecorators_ple env ns _ rest).1 e ?_
        rw [mem_edges_decodeFold]
        obtain ⟨dd, hdd, hn⟩ := hc
        exact Or.inr ⟨dd, hdd, hn⟩
      · exact ih _ hdec

/-! ### Concrete fixtures used by the witnesses and counterexamples -/

/-- The empty initial processor state (fresh call graph). -/
def st0 : PState := ⟨⟨[], []⟩, [], fun _ => 0⟩

/-- An environment in which every lookup fails and every helper returns
nothing. -/
def trivEnv : Env :=
  ⟨fun _ => none, fun _ => none, fun _ => [], fun _ _ => none,
    fun _ => [], fun _ => [], fun _ => [], fun _ _ => [], []⟩

/-- A definition that is both callable and a class definition. -/
def defC : Definition := ⟨"m.C", DefType.cls_def, true, false⟩

/-- Environment for the C1 witness: calling `C` resolves to `m.C`, whose
definition is a callable class with constructor `m.C.__init__`. -/
def envC1 : Env :=
  { trivEnv with
    retrieve_call_names := fun n =>
      match n with
      | Node.call (Node.name "C") [] [] => ["m.C"]
      | _ => [],
    def_manager := fun p => if p = "m.C" then some defC else none,
    find_cls_fun_ns := fun p m =>
      if p = "m.C" ∧ m = CLS_INIT then ["m.C.__init__"] else [] }

/-! ### The claims -/

/-- C1: for a call whose callee resolves to a non-empty set of
namespaces, candidates with no Definition contribute nothing, callable
candidates get the direct edge, class candidates get an edge to every
resolved constructor namespace, and the callable and class cases are not
mutually exclusive (a candidate that is both gets both kinds of edges). -/
theorem claim_C1 (env : Env) (ns : String) (func : Node) (args keywords : List Node)
    (st : PState) (e : String × String)
    (h : env.retrieve_call_names (Node.call func args keywords) ≠ []) :
    (e ∈ (resolveCall env ns func args keywords st).call_graph.edges ↔
      e ∈ st.call_graph.edges ∨
        ∃ p ∈ env.retrieve_call_names (Node.call func args keywords), ∃ d,
          env.def_manager p = some d ∧
            ((d.is_callable = true ∧ e = (ns, p)) ∨
             (d.get_type = DefType.cls_def ∧
               ∃ c ∈ env.find_cls_fun_ns p CLS_INIT, e = (ns, c)))) ∧
    (∀ p d, p ∈ env.retrieve_call_names (Node.call func args keywords) →
      env.def_manager p = some d → d.is_callable = true → d.get_type = DefType.cls_def →
        (ns, p) ∈ (resolveCall env ns func args keywords st).call_graph.edges ∧
        ∀ c ∈ env.find_cls_fun_ns p CLS_INIT,
          (ns, c) ∈ (resolveCall env ns func args keywords st).call_graph.edges) := by
  constructor
  · rw [mem_edges_resolveCall_resolved env ns func args keywords st e h]
    unfold callContrib
    exact Iff.rfl
  · intro p d hp hd hc ht
    constructor
    · rw [mem_edges_resolveCall_resolved env ns func args keywords st (ns, p) h]
      exact Or.inr ⟨p, hp, d, hd, Or.inl ⟨hc, rfl⟩⟩
    · intro c hcmem
      rw [mem_edges_resolveCall_resolved env ns func args keywords st (ns, c) h]
      exact Or.inr ⟨p, hp, d, hd, Or.inr ⟨ht, c, hcmem, rfl⟩⟩

/-- C1 witness: in `envC1`, the call `C()` resolves to `m.C`, and both
the direct edge and the constructor edge are added. -/
theorem claim_C1_witness :
    envC1.retrieve_call_names (Node.call (Node.name "C") [] []) ≠ [] ∧
    ("mod", "m.C") ∈ (resolveCall envC1 "mod" (Node.name "C") [] [] st0).call_graph.edges ∧
    ("mod", "m.C.__init__") ∈
      (resolveCall envC1 "mod" (Node.name "C") [] [] st0).call_graph.edges := by
  have h : envC1.retrieve_call_names (Node.call (Node.name "C") [] []) ≠ [] := by decide
  have h2 := (claim_C1 envC1 "mod" (Node.name "C") [] [] st0 ("mod", "m.C") h).2
    "m.C" defC (by decide) (by decide) (by decide) (by decide)
  exact ⟨h, h2.1, h2.2 "m.C.__init__" (by decide)⟩

/-- C2: for a call whose callee resolves to an empty name set: an
attribute-chain callee with an external parent contributes exactly one
edge per candidate dotted path (suffix appended to every namespace in
the closure of the scope-resolved root); a bare recognized built-in
contributes exactly the single reserved built-in edge; anything else
contributes nothing. -/
theorem claim_C2 (env : Env) (ns : String) (args keywords : List Node) (st : PState) :
    (∀ v a (e : String × String),
      env.retrieve_call_names (Node.call (Node.attrib v a) args keywords) = [] →
      has_ext_parent env (Node.attrib v a) = true →
      (e ∈ (resolveCall env ns (Node.attrib v a) args keywords st).call_graph.edges ↔
        e ∈ st.call_graph.edges ∨
          ∃ n ∈ get_full_attr_names env ns (Node.attrib v a), e = (ns, n)) ∧
      (∀ id s, buildAttrName (Node.attrib v a) "" = (s, Node.name id) →
        get_full_attr_names env ns (Node.attrib v a) =
          (((env.scope_get_def ns id).bind (fun d => env.closured d.get_ns)).getD []).map
            (fun i => i ++ "." ++ s))) ∧
    (∀ id, env.retrieve_call_names (Node.call (Node.name id) args keywords) = [] →
      id ≠ "" → is_builtin env id = true →
      resolveCall env ns (Node.name id) args keywords st =
        { st with call_graph := st.call_graph.add_edge ns (join_ns BUILTIN_NAME id) }) ∧
    (∀ func, env.retrieve_call_names (Node.call func args keywords) = [] →
      (∀ v a, func = Node.attrib v a → has_ext_parent env func = false) →
      (∀ id, func = Node.name id → id = "" ∨ is_builtin env id = false) →
      resolveCall env ns func args keywords st = st) := by
  refine ⟨fun v a e hempty hext => ⟨?_, ?_⟩, fun id hempty hid hb => ?_, fun func hempty h1 h2 => ?_⟩
  · rw [resolveCall_empty_ext env ns v a args keywords st hempty hext]
    exact mem_edges_foldl_add_edge _ ns st.call_graph e
  · exact fun id s hroot => get_full_attr_names_spec env ns (Node.attrib v a) id s hroot
  · exact resolveCall_empty_builtin env ns id args keywords st hempty hid hb
  · exact resolveCall_empty_noop env ns func args keywords st hempty h1 h2

/-- Environment for the C2 witness: `os` is an external definition in
scope, with closure `["os"]`; `len` is a recognized built-in. -/
def envC2 : Env :=
  { trivEnv with
    retrieve_parent_names := fun _ => ["os"],
    def_manager := fun p => if p = "os" then some ⟨"os", DefType.ext_def, true, true⟩ else none,
    scope_get_def := fun _ id =>
      if id = "os" then some ⟨"os", DefType.ext_def, true, true⟩ else none,
    closured := fun p => if p = "os" then some ["os"] else none,
    builtins := ["len"] }

/-- C2 witness: the external fallback adds the edge to `os.path` for
`os.path()`; the built-in fallback adds exactly the reserved edge for
`len()`; an unresolved bare name that is not a built-in adds nothing. -/
theorem claim_C2_witness :
    envC2.retrieve_call_names (Node.call (Node.attrib (Node.name "os") "path") [] []) = [] ∧
    has_ext_parent envC2 (Node.attrib (Node.name "os") "path") = true ∧
    ("mod", "os.path") ∈
      (resolveCall envC2 "mod" (Node.attrib (Node.name "os") "path") [] [] st0).call_graph.edges ∧
    resolveCall envC2 "mod" (Node.name "len") [] [] st0 =
      { st0 with call_graph := st0.call_graph.add_edge "mod" (join_ns BUILTIN_NAME "len") } ∧
    resolveCall envC2 "mod" (Node.name "x") [] [] st0 = st0 := by
  refine ⟨rfl, by decide, ?_, ?_, ?_⟩
  · exact ((claim_C2 envC2 "mod" [] [] st0).1 (Node.name "os") "path" ("mod", "os.path")
      rfl (by decide)).1.mpr (Or.inr ⟨"os.path", by decide, rfl⟩)
  · exact (claim_C2 envC2 "mod" [] [] st0).2.1 "len" rfl (by decide) (by decide)
  · refine (claim_C2 envC2 "mod" [] [] st0).2.2 (Node.name "x") rfl
      (fun v a hx => Node.noConfusion hx) (fun id hx => ?_)
    cases hx
    exact Or.inr (by decide)

/-- C3: for a decorated function definition, every decorator whose
decoding yields a Definition contributes an edge from the enclosing
namespace (the current namespace at the time, not the function's own
namespace) to every namespace in that Definition's closure; decoded
non-Definitions are ignored; and the decorator processing adds no edge
whose caller differs from the enclosing namespace — in particular no
edge from a decorator's namespace to the decorated function. -/
theorem claim_C3 :
    (∀ (env : Env) (ns : String) (st : PState) (fname : String) (decs body : List Node)
      (dec : Node) (dd : Definition) (n : String), dec ∈ decs →
      Decoded.defn dd ∈ env.decode_node dec → n ∈ (env.closured dd.get_ns).getD [] →
      (ns, n) ∈ (visit env ns st (Node.functionDef fname decs body)).call_graph.edges) ∧
    (∀ (env : Env) (ns : String) (st : PState) (fname : String) (decs : List Node),
      (∀ dec ∈ decs, atomicNode dec = true) →
      (∀ e, e ∈ (visit env ns st (Node.functionDef fname decs [])).call_graph.edges ↔
        e ∈ st.call_graph.edges ∨ ∃ dec ∈ decs, decoratorContrib env ns dec e) ∧
      (∀ caller callee, caller ≠ ns →
        (caller, callee) ∈ (visit env ns st (Node.functionDef fname decs [])).call_graph.edges →
        (caller, callee) ∈ st.call_graph.edges)) := by
  have hmem : ∀ (env : Env) (ns : String) (st : PState) (fname : String) (decs : List Node)
      (e : String × String),
      e ∈ (visit env ns st (Node.functionDef fname decs [])).call_graph.edges ↔
        e ∈ (visitDecorators env ns st decs).call_graph.edges := by
    intro env ns st fname decs e
    rw [visit_functionDef_eq, visitList_nil]
    rw [show ({ visitDecorators env ns st decs with call_graph :=
      (visitDecorators env ns st decs).call_graph.add_node (join_ns ns fname) } :
        PState).call_graph.edges =
      (visitDecorators env ns st decs).call_graph.edges from edges_add_node _ _]
  constructor
  · intro env ns st fname decs body dec dd n hdec hdd hn
    rw [visit_functionDef_eq]
    refine (visitList_ple env (join_ns ns fname) _ body).1 _ ?_
    rw [show ({ visitDecorators env ns st decs with call_graph :=
      (visitDecorators env ns st decs).call_graph.add_node (join_ns ns fname) } :
        PState).call_graph.edges =
      (visitDecorators env ns st decs).call_graph.edges from edges_add_node _ _]
    exact mem_visitDecorators_of_contrib env ns st decs dec hdec (ns, n) ⟨dd, hdd, n, hn, rfl⟩
  · intro env ns st fname decs hat
    constructor
    · intro e
      rw [hmem env ns st fname decs e]
      exact mem_edges_visitDecorators_atomic env ns st decs hat e
    · intro caller callee hne he
      rw [hmem env ns st fname decs _] at he
      rcases (mem_edges_visitDecorators_atomic env ns st decs hat _).mp he with h | ⟨dec, _, dd, _, n, _, heq⟩
      · exact h
      · exact absurd (congrArg Prod.fst heq) (by simpa using hne)

/-- Environment for the C3 witness: the decorator name `d` decodes to
the function definition `m.d`, whose closure is `["m.d"]`. -/
def envC3 : Env :=
  { trivEnv with
    decode_node := fun n =>
      match n with
      | Node.name "d" => [Decoded.defn ⟨"m.d", DefType.fun_def, true, false⟩]
      | _ => [],
    closured := fun p => if p = "m.d" then some ["m.d"] else none }

/-- C3 witness: visiting `def g` decorated with `d` in namespace `m`
adds the edge from the enclosing namespace `m` to `m.d`, and adds no
edge from `m.d` to the decorated function `m.g`. -/
theorem claim_C3_witness :
    (Decoded.defn ⟨"m.d", DefType.fun_def, true, false⟩ ∈ envC3.decode_node (Node.name "d")) ∧
    ("m", "m.d") ∈
      (visit envC3 "m" st0 (Node.functionDef "g" [Node.name "d"] [])).call_graph.edges ∧
    ¬ (("m.d", join_ns "m" "g") ∈
      (visit envC3 "m" st0 (Node.functionDef "g" [Node.name "d"] [])).call_graph.edges) := by
  refine ⟨by decide, ?_, ?_⟩
  · exact claim_C3.1 envC3 "m" st0 "g" [Node.name "d"] [] (Node.name "d")
      ⟨"m.d", DefType.fun_def, true, false⟩ "m.d" (List.mem_cons_self _ _) (by decide) (by decide)
  · intro hmem
    have := (claim_C3.2 envC3 "m" st0 "g" [Node.name "d"]
      (by intro dec hdec; rcases List.mem_cons.mp hdec with rfl | h
          · rfl
          · exact absurd h (List.not_mem_nil dec))).2 "m.d" (join_ns "m" "g") (by decide) hmem
    exact absurd this (by decide)

/-- C5: visiting a call first visits the positional arguments, then the
keyword values, then the callee, and only then resolves the call (the
first conjunct is the defining equation of the walk); consequently for a
nested chain equivalent to `f()()()` whose outer calls resolve to
nothing, every edge recorded for the innermost call is present after the
whole chain is visited. -/
theorem claim_C5 :
    (∀ (env : Env) (ns : String) (st : PState) (f : Node) (args keywords : List Node),
      visit env ns st (Node.call f args keywords) =
        resolveCall env ns f args keywords
          (visit env ns (visitList env ns (visitList env ns st args) keywords) f)) ∧
    (∀ (env : Env) (ns : String) (st : PState) (f : Node) (args keywords : List Node)
      (e : String × String),
      env.retrieve_call_names (Node.call (Node.call f args keywords) [] []) = [] →
      env.retrieve_call_names
        (Node.call (Node.call (Node.call f args keywords) [] []) [] []) = [] →
      e ∈ (visit env ns st (Node.call f args keywords)).call_graph.edges →
      e ∈ (visit env ns st
        (Node.call (Node.call (Node.call f args keywords) [] []) [] [])).call_graph.edges) := by
  constructor
  · exact visit_call_eq
  · intro env ns st f args keywords e h2 h3 he
    rw [visit_call_eq, visitList_nil, visitList_nil, visit_call_eq, visitList_nil, visitList_nil]
    rw [resolveCall_empty_noop env ns (Node.call f args keywords) [] [] _ h2
      (fun v a hx => Node.noConfusion hx) (fun id hx => Node.noConfusion hx)]
    rw [resolveCall_empty_noop env ns (Node.call (Node.call f args keywords) [] []) [] [] _ h3
      (fun v a hx => Node.noConfusion hx) (fun id hx => Node.noConfusion hx)]
    exact he

/-- Environment for the C5 witness: `len` is a built-in; no call
resolves to any namespace. -/
def envC5 : Env := { trivEnv with builtins := ["len"] }

/-- C5 witness: in `len()()()` the innermost call's built-in edge is
present after visiting the whole chain, although both outer calls
resolve to nothing. -/
theorem claim_C5_witness :
    envC5.retrieve_call_names
      (Node.call (Node.call (Node.name "len") [] []) [] []) = [] ∧
    envC5.retrieve_call_names
      (Node.call (Node.call (Node.call (Node.name "len") [] []) [] []) [] []) = [] ∧
    ("m", join_ns BUILTIN_NAME "len") ∈
      (visit envC5 "m" st0
        (Node.call (Node.call (Node.call (Node.name "len") [] []) [] []) [] [])).call_graph.edges := by
  refine ⟨rfl, rfl, ?_⟩
  exact claim_C5.2 envC5 "m" st0 (Node.name "len") [] [] ("m", join_ns BUILTIN_NAME "len")
    rfl rfl (by decide)

/-- C4: starting from a call graph satisfying the edge/node invariant,
after a whole run (all modules, recursively) every edge's caller and
callee are registered nodes — including the edges of the external
attribute-path fallback and of the built-in fallback. -/
theorem claim_C4 (env : Env) (menv : ModEnv) (fuel : Nat) (modname : String) (rs : RunState)
    (h : good rs.pst.call_graph) (e : String × String)
    (he : e ∈ (analyzeSub env menv fuel modname rs).pst.call_graph.edges) :
    e.1 ∈ (analyzeSub env menv fuel modname rs).pst.call_graph.nodes ∧
    e.2 ∈ (analyzeSub env menv fuel modname rs).pst.call_graph.nodes :=
  analyzeSub_good env menv fuel modname rs h e he

/-- The empty run state (fresh call graph, nothing analyzed yet). -/
def rs0 : RunState := ⟨st0, [], 0⟩

/-- Module environment for the C4 witness: module `m` consists of the
two calls `os.path()` (resolved by the external fallback) and `len()`
(resolved by the built-in fallback). -/
def menvC4 : ModEnv :=
  ⟨fun m => if m = "m" then
      [Node.call (Node.attrib (Node.name "os") "path") [] [],
       Node.call (Node.name "len") [] []]
    else [],
   fun _ => []⟩

/-- C4 witness: both fallback edges of the `menvC4` run have registered
endpoints. -/
theorem claim_C4_witness :
    good rs0.pst.call_graph ∧
    ("m", "os.path") ∈ (analyzeSub envC2 menvC4 1 "m" rs0).pst.call_graph.edges ∧
    ("m", join_ns BUILTIN_NAME "len") ∈
      (analyzeSub envC2 menvC4 1 "m" rs0).pst.call_graph.edges ∧
    "m" ∈ (analyzeSub envC2 menvC4 1 "m" rs0).pst.call_graph.nodes ∧
    "os.path" ∈ (analyzeSub envC2 menvC4 1 "m" rs0).pst.call_graph.nodes ∧
    join_ns BUILTIN_NAME "len" ∈ (analyzeSub envC2 menvC4 1 "m" rs0).pst.call_graph.nodes := by
  have hgood : good rs0.pst.call_graph := by intro e he; exact absurd he (List.not_mem_nil e)
  have h1 := claim_C4 envC2 menvC4 1 "m" rs0 hgood ("m", "os.path") (by decide)
  have h2 := claim_C4 envC2 menvC4 1 "m" rs0 hgood ("m", join_ns BUILTIN_NAME "len") (by decide)
  exact ⟨hgood, by decide, by decide, h1.1, h1.2, h2.2⟩

/-- C8: the external-parent check returns true exactly when some level
of the attribute chain has a parent namespace whose Definition is
flagged external; in particular it never fires on a chain none of whose
levels resolves to an external Definition. -/
theorem claim_C8 (env : Env) (node : Node) :
    (has_ext_parent env node = true ↔
      ∃ lvl ∈ attrLevels node, ∃ p ∈ env.retrieve_parent_names lvl,
        ∃ d, env.def_manager p = some d ∧ d.is_ext_def = true) ∧
    ((∀ lvl ∈ attrLevels node, ∀ p ∈ env.retrieve_parent_names lvl,
        ∀ d, env.def_manager p = some d → d.is_ext_def = false) →
      has_ext_parent env node = false) := by
  refine ⟨has_ext_parent_iff env node, fun hint => ?_⟩
  cases hb : has_ext_parent env node with
  | false => rfl
  | true =>
      obtain ⟨lvl, hl, p, hp, d, hd, hext⟩ := (has_ext_parent_iff env node).mp hb
      have h2 := hint lvl hl p hp d hd
      rw [hext] at h2
      exact Bool.noConfusion h2

/-- C8 witness: a purely internal chain (no parent resolves at all)
makes the check return false. -/
theorem claim_C8_witness :
    (∀ lvl ∈ attrLevels (Node.attrib Node.const "a"),
      ∀ p ∈ trivEnv.retrieve_parent_names lvl,
        ∀ d, trivEnv.def_manager p = some d → d.is_ext_def = false) ∧
    has_ext_parent trivEnv (Node.attrib Node.const "a") = false := by
  have h : ∀ lvl ∈ attrLevels (Node.attrib Node.const "a"),
      ∀ p ∈ trivEnv.retrieve_parent_names lvl,
        ∀ d, trivEnv.def_manager p = some d → d.is_ext_def = false := by
    intro lvl _ p hp
    exact absurd hp (List.not_mem_nil p)
  exact ⟨h, (claim_C8 trivEnv (Node.attrib Node.const "a")).2 h⟩

/-- C10: for a call whose callee is an attribute chain with a non-name
root, the candidate construction returns the empty list, so the external
fallback adds no edges even when the external-parent check fires. -/
theorem claim_C10 (env : Env) (ns : String) (v : Node) (a : String)
    (args keywords : List Node) (st : PState)
    (hroot : ∀ id, (buildAttrName (Node.attrib v a) "").2 ≠ Node.name id)
    (hempty : env.retrieve_call_names (Node.call (Node.attrib v a) args keywords) = [])
    (hext : has_ext_parent env (Node.attrib v a) = true) :
    get_full_attr_names env ns (Node.attrib v a) = [] ∧
    resolveCall env ns (Node.attrib v a) args keywords st = st := by
  have h1 := get_full_attr_names_nil env ns (Node.attrib v a) hroot
  refine ⟨h1, ?_⟩
  rw [resolveCall_empty_ext env ns v a args keywords st hempty hext, h1]
  rfl

/-- Environment for the C10 witness: every parent of an attribute level
resolves to the external `os`, so the external-parent check fires. -/
def envC10 : Env :=
  { trivEnv with
    retrieve_parent_names := fun _ => ["os"],
    def_manager := fun p => if p = "os" then some ⟨"os", DefType.ext_def, true, true⟩ else none }

/-- C10 witness: for `f().meth()` (chain root is a call), no fallback
edge is added although the external-parent check returns true. -/
theorem claim_C10_witness :
    (buildAttrName (Node.attrib (Node.call (Node.name "f") [] []) "meth") "").2 =
      Node.call (Node.name "f") [] [] ∧
    has_ext_parent envC10 (Node.attrib (Node.call (Node.name "f") [] []) "meth") = true ∧
    get_full_attr_names envC10 "m" (Node.attrib (Node.call (Node.name "f") [] []) "meth") = [] ∧
    resolveCall envC10 "m" (Node.attrib (Node.call (Node.name "f") [] []) "meth") [] [] st0 = st0 := by
  have h := claim_C10 envC10 "m" (Node.call (Node.name "f") [] []) "meth" [] [] st0
    (fun id hx => Node.noConfusion hx) rfl rfl
  exact ⟨rfl, rfl, h.1, h.2⟩

/-- Environment for the C6 counterexample: namespace `m` has a scope with
one function definition `m.f`, but the closure mapping has no entry for
`m.f`. -/
def envC6 : Env :=
  { trivEnv with
    scopes := fun n =>
      if n = "m" then [⟨[("f", ⟨"m.f", DefType.fun_def, true, false⟩)]⟩] else [] }

/-- C6 counterexample: the reachable-function query does not silently
skip a missing closure entry — iterating over the absent entry aborts
the query (`none` models the `TypeError` raised by iterating `None`). -/
theorem claim_C6_counterexample : get_all_reachable_functions envC6 "m" = none := by decide

/-- C6 (amended): missing Definitions are silently skipped by the call
resolution loop, and a namespace without a scope yields an empty (not
aborted) reachable-set; but the reachable-function query is only
abort-free when every visible function definition has a closure entry. -/
theorem claim_C6 :
    (∀ (env : Env) (ns : String) (st : PState) (p : String),
      env.def_manager p = none → callPointerStep env ns st p = st) ∧
    (∀ (env : Env) (ns : String), env.scopes ns = [] →
      get_all_reachable_functions env ns = some []) ∧
    (∀ (env : Env) (ns : String),
      (∀ sc ∈ env.scopes ns, ∀ p ∈ sc.defs, p.2.is_function_def = true →
        (env.closured p.2.get_ns).isSome = true) →
      (get_all_reachable_functions env ns).isSome = true) := by
  refine ⟨fun env ns st p hp => ?_, fun env ns hs => ?_, fun env ns h => ?_⟩
  · unfold callPointerStep
    rw [hp]
  · unfold get_all_reachable_functions
    rw [hs]
    rfl
  · unfold get_all_reachable_functions
    rw [reachLoop_eq env (env.scopes ns) [] [] h]
    rfl

/-- Environment for the C7 witness (also used to witness the abort-free
case of C6): the scope chain of `m.fn` has an inner scope defining
function `f` (namespace `m.f`) and an outer scope defining functions `f`
(namespace `g.f`, shadowed) and `h` (namespace `g.h`), plus a
non-function name `x`. -/
def envC7 : Env :=
  { trivEnv with
    scopes := fun n =>
      if n = "m.fn" then
        [⟨[("f", ⟨"m.f", DefType.fun_def, true, false⟩)]⟩,
         ⟨[("f", ⟨"g.f", DefType.fun_def, true, false⟩),
           ("h", ⟨"g.h", DefType.fun_def, true, false⟩),
           ("x", ⟨"g.x", DefType.name_def, false, false⟩)]⟩]
      else [],
    closured := fun p =>
      if p = "m.f" then some ["m.f"]
      else if p = "g.h" then some ["g.h"]
      else if p = "g.f" then some ["SHADOWED"]
      else none }

/-- C6 witness: a concrete skipped missing Definition, a concrete
scope-less namespace, and a concrete abort-free query. -/
theorem claim_C6_witness :
    trivEnv.def_manager "nowhere" = none ∧
    callPointerStep trivEnv "m" st0 "nowhere" = st0 ∧
    trivEnv.scopes "m" = [] ∧
    get_all_reachable_functions trivEnv "m" = some [] ∧
    (get_all_reachable_functions envC7 "m.fn").isSome = true := by
  refine ⟨rfl, claim_C6.1 trivEnv "m" st0 "nowhere" rfl, rfl,
    claim_C6.2.1 trivEnv "m" rfl, claim_C6.2.2 envC7 "m.fn" (by decide)⟩

/-- C7: when the closure mapping covers the visible function
definitions, the reachable-function query returns exactly the union of
the closures of the function-kind definitions collected outward through
the scope chain with name shadowing (the claim's words are the
definition `reachableSpec`); the query consumes its inputs read-only. -/
theorem claim_C7 (env : Env) (ns : String)
    (h : ∀ sc ∈ env.scopes ns, ∀ p ∈ sc.defs, p.2.is_function_def = true →
      (env.closured p.2.get_ns).isSome = true) :
    get_all_reachable_functions env ns = some (reachableSpec env (env.scopes ns) []) := by
  unfold get_all_reachable_functions
  rw [reachLoop_eq env (env.scopes ns) [] [] h]
  rfl

/-- C7 witness: in `envC7` the query returns the closures of `m.f` and
`g.h`; the outer `g.f` is shadowed by the inner `f` and contributes
nothing. -/
theorem claim_C7_witness :
    (∀ sc ∈ envC7.scopes "m.fn", ∀ p ∈ sc.defs, p.2.is_function_def = true →
      (envC7.closured p.2.get_ns).isSome = true) ∧
    get_all_reachable_functions envC7 "m.fn" =
      some (reachableSpec envC7 (envC7.scopes "m.fn") []) ∧
    reachableSpec envC7 (envC7.scopes "m.fn") [] = ["m.f", "g.h"] := by
  exact ⟨by decide, claim_C7 envC7 "m.fn" (by decide), by decide⟩

/-- Module environment for C9: module `mod_a` imports module `mod_b`;
both have empty trees. -/
def menvC9 : ModEnv :=
  ⟨fun _ => [], fun m => if m = "mod_a" then ["mod_b"] else []⟩

/-- C9 counterexample: a run that analyzes two modules invokes the
transitive-closure computation twice (once per constructed processor),
not exactly once per run. -/
theorem claim_C9_counterexample :
    (analyzeSub trivEnv menvC9 2 "mod_a" rs0).closure_invocations = 2 ∧ (2 : Nat) ≠ 1 := by
  exact ⟨by decide, by decide⟩

/-- C9 (amended): the transitive-closure computation is invoked once per
newly analyzed module — at processor construction, before that module's
tree is visited — so over a whole run its invocation count equals the
number of modules analyzed, not one. -/
theorem claim_C9 (env : Env) (menv : ModEnv) (fuel : Nat) (modname : String) (rs : RunState)
    (h : rs.closure_invocations = rs.analyzed.length) :
    (analyzeSub env menv fuel modname rs).closure_invocations =
      (analyzeSub env menv fuel modname rs).analyzed.length :=
  analyzeSub_inv env menv fuel modname rs h

/-- C9 witness: the two-module run ends with two invocations and two
analyzed modules. -/
theorem claim_C9_witness :
    rs0.closure_invocations = rs0.analyzed.length ∧
    (analyzeSub trivEnv menvC9 2 "mod_a" rs0).closure_invocations =
      (analyzeSub trivEnv menvC9 2 "mod_a" rs0).analyzed.length ∧
    (analyzeSub trivEnv menvC9 2 "mod_a" rs0).analyzed.length = 2 := by
  exact ⟨rfl, claim_C9 trivEnv menvC9 2 "mod_a" rs0 rfl, by decide⟩

end PyCG
